import Mathlib

/-!
Verification of the `recipe-calculator` program (`src/solve.py`).

This file gives a shallow embedding of the program in `src/solve.py` and proves
the specified properties of it.

The program is built on two functions:

* `build_graph(path_to_csv)` reads a CSV edge list with columns
  `Recipe`, `Ingredient`, `Ingredient Rate` and builds a `networkx.DiGraph`
  via `nx.from_pandas_edgelist(..., create_using=nx.DiGraph)`, which adds one
  directed edge per row (`add_edge` semantics: nodes are inserted on first
  mention, and a repeated `(source, target)` pair overwrites the previous
  edge attributes rather than creating a parallel edge).
* `get_ingredients(graph, recipe, num_output)` computes
  `p = nx.predecessor(graph, recipe)` (a BFS from `recipe` along out-edges:
  its key set is the set of nodes reachable from `recipe`, and it raises the
  library's missing-node condition when `recipe` is not a node of `graph`),
  takes the induced subgraph `sg = nx.subgraph(graph, p)`, initialises a dict
  `ingredients` with one zero entry per node of `sg` (in `sg`'s node order,
  which is the original graph's node-insertion order restricted to the
  subgraph), sets `ingredients[recipe] = num_output`, and then for each key
  `ing` sums, over all simple edge paths from `recipe` to `ing` in `sg`, the
  product of `num_output` with the `"Ingredient Rate"` attribute of each edge
  of the path, accumulating into `ingredients[ing]`.  Finally it deletes the
  `recipe` entry and returns the dict.

The graph library (`networkx`) and the CSV reader (`pandas`) are external
collaborators of this repository (spec §4.1 declares the Graph Model an
external collaborator specified only by interface); their operations are
embedded below following their documented behaviour, and CSV parsing is
abstracted as a list of already-parsed rows.  Numeric values (rates and
output quantities) are modelled as rationals.  Python dicts are modelled as
association lists in insertion order; all keys are unique by construction.
-/

namespace RecipeCalc

/-- A directed graph in the style of `networkx.DiGraph`: a list of nodes in
insertion order (no duplicates once built through `addEdge`), and an
adjacency association list from ordered node pairs to the `"Ingredient Rate"`
edge attribute, at most one entry per pair once built through `addEdge`. -/
structure DiGraph where
  nodes : List String
  adj : List ((String × String) × ℚ)

/-- The empty `networkx.DiGraph`. -/
def emptyGraph : DiGraph := ⟨[], []⟩

/-- Node insertion as done by `DiGraph.add_edge`: a node already present is
left alone (its position in insertion order is kept), a new one is appended. -/
def addNode (ns : List String) (n : String) : List String :=
  if n ∈ ns then ns else ns ++ [n]

/-- Edge-attribute update as done by `DiGraph.add_edge`: if the pair is
already present its attribute is overwritten in place, otherwise the edge is
appended. -/
def setEdge (adj : List ((String × String) × ℚ)) (u v : String) (r : ℚ) :
    List ((String × String) × ℚ) :=
  match adj with
  | [] => [((u, v), r)]
  | e :: rest =>
      if e.1 = (u, v) then ((u, v), r) :: rest else e :: setEdge rest u v r

/-- The operation `DiGraph.add_edge(u, v, **attrs)`: inserts both endpoints
as nodes and sets (or overwrites) the edge attribute. -/
def addEdge (g : DiGraph) (u v : String) (r : ℚ) : DiGraph :=
  ⟨addNode (addNode g.nodes u) v, setEdge g.adj u v r⟩

/-- One parsed row of the CSV edge list handed to `nx.from_pandas_edgelist`:
the `Recipe` (source), `Ingredient` (target) and `Ingredient Rate` columns. -/
structure Row where
  Recipe : String
  Ingredient : String
  rate : ℚ

/-- The function `build_graph`: builds the directed graph from the edge list, one
`add_edge` per row in row order, exactly as
`nx.from_pandas_edgelist(df, source="Recipe", target="Ingredient",
edge_attr=True, create_using=nx.DiGraph)` does.  The CSV parsing itself
(pandas) is abstracted as the already-parsed list of rows. -/
def build_graph (rows : List Row) : DiGraph :=
  rows.foldl (fun g row => addEdge g row.Recipe row.Ingredient row.rate) emptyGraph

/-- The successors of `u` (the iteration `G[u]` of networkx), in adjacency
order. -/
def succs (g : DiGraph) (u : String) : List String :=
  (g.adj.filter (fun e => e.1.1 == u)).map (fun e => e.1.2)

/-- The `"Ingredient Rate"` attribute of edge `u → v`, i.e.
`g.edges[u, v]["Ingredient Rate"]`, when the edge exists. -/
def edgeRate (g : DiGraph) (u v : String) : Option ℚ :=
  (g.adj.find? (fun e => e.1.1 == u && e.1.2 == v)).map (fun e => e.2)

/-- Total version of `edgeRate` used while walking a path.  Every edge of an
enumerated simple path exists in the graph, so the default is never hit on
the paths the program walks. -/
def edgeRateD (g : DiGraph) (u v : String) : ℚ :=
  (edgeRate g u v).getD 0

/-- One round of the BFS of `nx.predecessor`: the nodes newly discovered
from the frontier `acc` (successors of members of `acc` not already seen),
deduplicated. -/
def reachStepFresh (g : DiGraph) (acc : List String) : List String :=
  (((acc.map (succs g)).flatten).filter (fun v => !(acc.contains v))).dedup

/-- Fuelled saturation of `reachStepFresh`: computes the set of nodes
reachable from the starting set.  `nx.predecessor`'s BFS visits exactly
these nodes (they form the key set of the dict it returns); since each
round before saturation discovers at least one new node of the graph,
`g.nodes.length` rounds of fuel always suffice. -/
def reachAux (g : DiGraph) : Nat → List String → List String
  | 0, acc => acc
  | fuel + 1, acc =>
      let fresh := reachStepFresh g acc
      if fresh = [] then acc else reachAux g fuel (acc ++ fresh)

/-- The error raised by the graph library when a queried node is missing
from the graph (`nx.predecessor` raises it for an absent source). -/
inductive PyError where
  | nodeNotFound

/-- Modelled from the spec: the spec (§7, error taxonomy; §4.2 error
conditions) classifies the graph library's missing-node failure — the
library itself is an external collaborator not under `src/` — as a
**LookupError**-class condition (`InvalidRecipeError`). -/
def PyError.isLookupError : PyError → Bool
  | .nodeNotFound => true

/-- The call `nx.predecessor(graph, source)` as used by `get_ingredients`: only its
key set matters to the program (the dict values are never read), so we embed
it as that key set — the nodes reachable from `source` — or the library's
missing-node error when `source` is not a node. -/
def predecessorKeys (g : DiGraph) (s : String) : Except PyError (List String) :=
  if s ∈ g.nodes then .ok (reachAux g g.nodes.length [s]) else .error .nodeNotFound

/-- The call `nx.subgraph(graph, ns)`: the subgraph induced on the given node set.
Its node iteration order is the original graph's node order filtered to the
set, and its edges are those with both endpoints in the set. -/
def subgraph (g : DiGraph) (ns : List String) : DiGraph :=
  ⟨g.nodes.filter (fun n => ns.contains n),
   g.adj.filter (fun e => ns.contains e.1.1 && ns.contains e.1.2)⟩

/-- Depth-first enumeration of the simple edge paths from the current node
`u` to `target`, avoiding the `visited` nodes, with enough fuel for any
simple path.  When `u = target` the one simple path is the empty edge list
(a simple path cannot pass through `target` before ending there). -/
def simplePathsAux (g : DiGraph) (target : String) :
    Nat → String → List String → List (List (String × String))
  | 0, _, _ => []
  | fuel + 1, u, visited =>
      if u = target then [[]]
      else
        ((succs g u).filter (fun v => !(visited.contains v))).map
            (fun v =>
              (simplePathsAux g target fuel v (visited ++ [v])).map
                (fun p => (u, v) :: p))
          |>.flatten

/-- The call `nx.all_simple_edge_paths(g, s, t)`: every simple directed path from `s`
to `t` as a list of edges.  A simple path has at most `g.nodes.length - 1`
edges, so `g.nodes.length` fuel suffices. -/
def all_simple_edge_paths (g : DiGraph) (s t : String) :
    List (List (String × String)) :=
  simplePathsAux g t g.nodes.length s [s]

/-- Python dictionary assignment `d[k] = x`: overwrites the value of an existing
key in place (keeping its position in insertion order), else appends. -/
def setVal (l : List (String × ℚ)) (k : String) (x : ℚ) : List (String × ℚ) :=
  match l with
  | [] => [(k, x)]
  | p :: rest => if p.1 = k then (k, x) :: rest else p :: setVal rest k x

/-- Python dict increment `d[k] += x` for a key that is present: adds `x` to
the value at `k` (keys are unique, so mapping over all entries matching `k`
coincides with updating the single entry). -/
def addVal (l : List (String × ℚ)) (k : String) (x : ℚ) : List (String × ℚ) :=
  l.map (fun p => if p.1 = k then (p.1, p.2 + x) else p)

/-- Python dict deletion `del d[k]`: removes the entry for `k`, preserving
the order of the others. -/
def delKey (l : List (String × ℚ)) (k : String) : List (String × ℚ) :=
  l.filter (fun p => !(p.1 == k))

/-- The product accumulated over one simple edge path: starts at
`num_output` and multiplies in each edge's `"Ingredient Rate"` in path
order (`product *= sg.edges[u, v]["Ingredient Rate"]`). -/
def pathProduct (sg : DiGraph) (seed : ℚ) (path : List (String × String)) : ℚ :=
  path.foldl (fun product e => product * edgeRateD sg e.1 e.2) seed

/-- The core function `get_ingredients(graph, recipe, num_output)` from
`src/solve.py`:

```python
p = nx.predecessor(graph, recipe)
sg = nx.subgraph(graph, p)
ingredients = dict(zip([n for n in sg.nodes], [0 for n in range(len(sg.nodes))]))
ingredients[recipe] = num_output
for ing in ingredients:
    paths = [path for path in nx.all_simple_edge_paths(sg, recipe, ing)]
    for path in paths:
        product = num_output
        for u, v in path:
            product *= sg.edges[u, v]["Ingredient Rate"]
        ingredients[ing] += product

del ingredients[recipe]
return ingredients
```

The loop over the dict iterates its key list (mutating only values), so it
is a fold over the key list of `ingredients` after seeding; `accumPaths`
below is the body of that loop for one key `ing`. -/
def accumPaths (sg : DiGraph) (num_output : ℚ) (recipe : String)
    (acc : List (String × ℚ)) (ing : String) : List (String × ℚ) :=
  (all_simple_edge_paths sg recipe ing).foldl
    (fun acc2 path => addVal acc2 ing (pathProduct sg num_output path)) acc

/-- The core function `get_ingredients(graph, recipe, num_output)` from `src/solve.py`, see
the module docstring and `accumPaths` for the correspondence with the
Python loops. -/
def get_ingredients (g : DiGraph) (recipe : String) (num_output : ℚ) :
    Except PyError (List (String × ℚ)) :=
  match predecessorKeys g recipe with
  | .error e => .error e
  | .ok p =>
      let sg := subgraph g p
      let ingredients0 := sg.nodes.map (fun n => (n, (0 : ℚ)))
      let ingredients1 := setVal ingredients0 recipe num_output
      let ingredients2 :=
        (ingredients1.map Prod.fst).foldl (accumPaths sg num_output recipe) ingredients1
      .ok (delKey ingredients2 recipe)

/-- State-passing rendering of `get_ingredients`, making the frame effect on
the input graph explicit: every graph operation the Python function performs
(`nx.predecessor`, `nx.subgraph`, node enumeration, path enumeration and
edge-attribute reads) only reads the graph, so each step is paired with the
graph state it leaves behind, and the final state is returned alongside the
result. -/
def get_ingredients_st (g : DiGraph) (recipe : String) (num_output : ℚ) :
    Except PyError (List (String × ℚ)) × DiGraph :=
  let step1 := (predecessorKeys g recipe, g)
  match step1.1 with
  | .error e => (.error e, step1.2)
  | .ok p =>
      let step2 := (subgraph step1.2 p, step1.2)
      let sg := step2.1
      let ingredients0 := sg.nodes.map (fun n => (n, (0 : ℚ)))
      let ingredients1 := setVal ingredients0 recipe num_output
      let ingredients2 :=
        (ingredients1.map Prod.fst).foldl (accumPaths sg num_output recipe) ingredients1
      (.ok (delKey ingredients2 recipe), step2.2)

/-- The edge relation of the graph: `Edge g u v` holds when the graph has a
directed edge `u → v` (with some rate). -/
def Edge (g : DiGraph) (u v : String) : Prop :=
  ∃ r, ((u, v), r) ∈ g.adj

/-- Reachability: `Reaches g u v` holds when `v` is reachable from `u` by a directed path (possibly
of length zero).  The spec's *ancestor closure* of a target `t` is
`{u | Reaches g u t}`; the set computed by `nx.predecessor(g, s)` is the
*descendant closure* `{v | Reaches g s v}`. -/
def Reaches (g : DiGraph) : String → String → Prop :=
  Relation.ReflTransGen (Edge g)

/-- Well-formedness of a graph value, maintained by `networkx.DiGraph` (and
by `build_graph`): the node list has no duplicates and every edge endpoint
is a node. -/
def DiGraph.WF (g : DiGraph) : Prop :=
  g.nodes.Nodup ∧ ∀ e ∈ g.adj, e.1.1 ∈ g.nodes ∧ e.1.2 ∈ g.nodes

/-- A node list closed under taking successors. -/
def Closed (g : DiGraph) (l : List String) : Prop :=
  ∀ u ∈ l, ∀ v ∈ succs g u, v ∈ l

/-- Multiplies every value of a result mapping by the scalar `c` (used to
state the spec's scaling/linearity property). -/
def scaleVals (c : ℚ) (l : List (String × ℚ)) : List (String × ℚ) :=
  l.map (fun p => (p.1, c * p.2))

/-- The diamond graph of the spec's *Diamond aggregation* test case:
edges `A → B` (rate 2), `A → C` (rate 3), `B → D` (rate 5), `C → D`
(rate 7). -/
def diamondG : DiGraph :=
  build_graph [⟨"A", "B", 2⟩, ⟨"A", "C", 3⟩, ⟨"B", "D", 5⟩, ⟨"C", "D", 7⟩]

/-- A two-node graph with the single edge `B → A` (rate 7): `B` is an
ancestor of `A`, but `B` is not reachable *from* `A`. -/
def reverseEdgeG : DiGraph :=
  build_graph [⟨"B", "A", 7⟩]

/-! ## Basic lemmas about the dictionary operations -/

theorem map_fst_addVal (l : List (String × ℚ)) (k : String) (x : ℚ) :
    (addVal l k x).map Prod.fst = l.map Prod.fst := by
  simp only [addVal, List.map_map]
  refine List.map_congr_left ?_
  intro p _
  by_cases h : p.1 = k <;> simp [h]

theorem map_fst_setVal (l : List (String × ℚ)) (k : String) (x : ℚ)
    (hk : k ∈ l.map Prod.fst) : (setVal l k x).map Prod.fst = l.map Prod.fst := by
  induction l with
  | nil => simp at hk
  | cons p rest ih =>
      by_cases h : p.1 = k
      · simp [setVal, h]
      · simp only [List.map_cons, List.mem_cons] at hk
        rcases hk with hk | hk
        · exact absurd hk.symm h
        · simp [setVal, h, ih hk]

theorem map_fst_delKey (l : List (String × ℚ)) (k : String) :
    (delKey l k).map Prod.fst = (l.map Prod.fst).filter (fun v => !(v == k)) := by
  induction l with
  | nil => rfl
  | cons p rest ih =>
      by_cases h : p.1 = k <;> simp [delKey, List.filter_cons, h] at ih ⊢ <;> simp [ih]

theorem mem_map_fst_delKey (l : List (String × ℚ)) (k v : String) :
    v ∈ (delKey l k).map Prod.fst ↔ (v ∈ l.map Prod.fst ∧ v ≠ k) := by
  simp [map_fst_delKey, List.mem_filter]

theorem map_fst_accumPaths (sg : DiGraph) (c : ℚ) (recipe : String)
    (acc : List (String × ℚ)) (ing : String) :
    (accumPaths sg c recipe acc ing).map Prod.fst = acc.map Prod.fst := by
  rw [accumPaths]
  generalize all_simple_edge_paths sg recipe ing = paths
  induction paths generalizing acc with
  | nil => rfl
  | cons path rest ih => simpa [List.foldl_cons, map_fst_addVal] using ih (addVal acc ing (pathProduct sg c path))

theorem map_fst_foldl_accumPaths (sg : DiGraph) (c : ℚ) (recipe : String)
    (ings : List String) (acc : List (String × ℚ)) :
    ((ings.foldl (accumPaths sg c recipe) acc)).map Prod.fst = acc.map Prod.fst := by
  induction ings generalizing acc with
  | nil => rfl
  | cons ing rest ih => simpa [List.foldl_cons, map_fst_accumPaths] using ih (accumPaths sg c recipe acc ing)

/-! ## Basic lemmas about the graph traversal -/

theorem mem_succs (g : DiGraph) (u v : String) : v ∈ succs g u ↔ Edge g u v := by
  simp only [succs, Edge, List.mem_map, List.mem_filter, beq_iff_eq]
  constructor
  · rintro ⟨e, ⟨he, h1⟩, h2⟩
    exact ⟨e.2, by rwa [← h1, ← h2]⟩
  · rintro ⟨r, hr⟩
    exact ⟨((u, v), r), ⟨hr, rfl⟩, rfl⟩

theorem subset_reachAux (g : DiGraph) (fuel : Nat) (acc : List String)
    (a : String) (ha : a ∈ acc) : a ∈ reachAux g fuel acc := by
  induction fuel generalizing acc with
  | zero => exact ha
  | succ n ih =>
      rw [reachAux]
      by_cases h : reachStepFresh g acc = []
      · simpa [h] using ha
      · simpa [h] using ih (acc ++ reachStepFresh g acc) (List.mem_append_left _ ha)

theorem mem_reachStepFresh (g : DiGraph) (acc : List String) (v : String) :
    v ∈ reachStepFresh g acc ↔ ((∃ u ∈ acc, v ∈ succs g u) ∧ v ∉ acc) := by
  simp only [reachStepFresh, List.mem_dedup, List.mem_filter, List.mem_flatten,
    List.mem_map, Bool.not_eq_true']
  constructor
  · rintro ⟨⟨s, ⟨u, hu, rfl⟩, hv⟩, hcon⟩
    refine ⟨⟨u, hu, hv⟩, ?_⟩
    simpa using hcon
  · rintro ⟨⟨u, hu, hv⟩, hcon⟩
    exact ⟨⟨succs g u, ⟨u, hu, rfl⟩, hv⟩, by simpa using hcon⟩

theorem closed_of_fresh_nil (g : DiGraph) (acc : List String)
    (h : reachStepFresh g acc = []) : Closed g acc := by
  intro u hu v hv
  by_contra hva
  have : v ∈ reachStepFresh g acc := (mem_reachStepFresh g acc v).mpr ⟨⟨u, hu, hv⟩, hva⟩
  simp [h] at this

theorem reaches_of_mem_reachAux (g : DiGraph) (s : String) (fuel : Nat)
    (acc : List String) (hacc : ∀ a ∈ acc, Reaches g s a) (v : String)
    (hv : v ∈ reachAux g fuel acc) : Reaches g s v := by
  induction fuel generalizing acc with
  | zero => exact hacc v hv
  | succ n ih =>
      rw [reachAux] at hv
      by_cases h : reachStepFresh g acc = []
      · simp only [h, if_pos] at hv
        exact hacc v hv
      · simp only [h, if_neg, ite_false] at hv
        refine ih (acc ++ reachStepFresh g acc) ?_ hv
        intro a ha
        rcases List.mem_append.mp ha with ha | ha
        · exact hacc a ha
        · obtain ⟨⟨u, hu, hsucc⟩, -⟩ := (mem_reachStepFresh g acc a).mp ha
          exact Relation.ReflTransGen.tail (hacc u hu) ((mem_succs g u a).mp hsucc)

theorem length_filter_lt (nodes : List String) (hnd : nodes.Nodup)
    (P Q : String → Bool) (himp : ∀ n, Q n = true → P n = true) (x : String)
    (hx : x ∈ nodes) (hPx : P x = true) (hQx : Q x = false) :
    (nodes.filter Q).length < (nodes.filter P).length := by
  have hsub : x :: nodes.filter Q ⊆ nodes.filter P := by
    intro y hy
    rcases List.mem_cons.mp hy with rfl | hy
    · exact List.mem_filter.mpr ⟨hx, hPx⟩
    · have := List.mem_filter.mp hy
      exact List.mem_filter.mpr ⟨this.1, himp y this.2⟩
  have hnodup : (x :: nodes.filter Q).Nodup := by
    refine List.nodup_cons.mpr ⟨?_, hnd.filter Q⟩
    intro hmem
    have := (List.mem_filter.mp hmem).2
    simp [hQx] at this
  have h1 : (x :: nodes.filter Q).toFinset.card = (x :: nodes.filter Q).length :=
    List.toFinset_card_of_nodup hnodup
  have h2 : (x :: nodes.filter Q).toFinset ⊆ (nodes.filter P).toFinset := by
    intro y hy
    exact List.mem_toFinset.mpr (hsub (List.mem_toFinset.mp hy))
  have h3 : (x :: nodes.filter Q).toFinset.card ≤ (nodes.filter P).toFinset.card :=
    Finset.card_le_card h2
  have h4 : (nodes.filter P).toFinset.card ≤ (nodes.filter P).length :=
    List.toFinset_card_le _
  have : (x :: nodes.filter Q).length ≤ (nodes.filter P).length := by
    omega
  simpa [List.length_cons, Nat.succ_le_iff] using this

theorem reachAux_closed (g : DiGraph) (hwf : g.WF) (fuel : Nat)
    (acc : List String) (hnd : acc.Nodup)
    (hfuel : (g.nodes.filter (fun n => !(acc.contains n))).length ≤ fuel) :
    Closed g (reachAux g fuel acc) := by
  induction fuel generalizing acc with
  | zero =>
      have hnil : g.nodes.filter (fun n => !(acc.contains n)) = [] :=
        List.length_eq_zero.mp (Nat.le_zero.mp hfuel)
      have hall : ∀ n ∈ g.nodes, n ∈ acc := by
        intro n hn
        by_contra hna
        have : n ∈ g.nodes.filter (fun n => !(acc.contains n)) :=
          List.mem_filter.mpr ⟨hn, by simpa using hna⟩
        rw [hnil] at this
        exact absurd this (List.not_mem_nil n)
      intro u _ v hv
      exact hall v (hwf.2 _ ((mem_succs g u v).mp hv).choose_spec).2
  | succ n ih =>
      rw [reachAux]
      by_cases h : reachStepFresh g acc = []
      · simpa [h] using closed_of_fresh_nil g acc h
      · simp only [h, if_neg, ite_false]
        have hfreshnd : (reachStepFresh g acc).Nodup := List.nodup_dedup _
        have hdisj : acc.Disjoint (reachStepFresh g acc) := by
          intro a ha hfa
          exact ((mem_reachStepFresh g acc a).mp hfa).2 ha
        refine ih (acc ++ reachStepFresh g acc) (hnd.append hfreshnd hdisj) ?_
        obtain ⟨x, hxfresh⟩ := List.exists_mem_of_ne_nil _ h
        obtain ⟨⟨u, hu, hsucc⟩, hxacc⟩ := (mem_reachStepFresh g acc x).mp hxfresh
        have hxnodes : x ∈ g.nodes :=
          (hwf.2 _ ((mem_succs g u x).mp hsucc).choose_spec).2
        have hlt :
            (g.nodes.filter (fun m => !((acc ++ reachStepFresh g acc).contains m))).length <
            (g.nodes.filter (fun m => !(acc.contains m))).length := by
          refine length_filter_lt g.nodes hwf.1 _ _ ?_ x hxnodes (by simpa using hxacc) ?_
          · intro m hm
            have hm2 : m ∉ acc ++ reachStepFresh g acc := by simpa using hm
            have hma : m ∉ acc := fun hc => hm2 (List.mem_append_left _ hc)
            simpa using hma
          · have hx : x ∈ acc ++ reachStepFresh g acc :=
              List.mem_append_right _ hxfresh
            have hc : ((acc ++ reachStepFresh g acc).contains x) = true := by
              simpa using hx
            simp [hc]
            exact fun _ => hxfresh
        omega

theorem mem_of_closed_reaches (g : DiGraph) (l : List String) (hcl : Closed g l)
    (s : String) (hs : s ∈ l) (v : String) (hv : Reaches g s v) : v ∈ l := by
  induction hv with
  | refl => exact hs
  | tail _ hbc ih => exact hcl _ ih _ ((mem_succs g _ _).mpr hbc)

theorem mem_reachAux_iff (g : DiGraph) (hwf : g.WF) (s : String) (v : String) :
    v ∈ reachAux g g.nodes.length [s] ↔ Reaches g s v := by
  constructor
  · intro hv
    refine reaches_of_mem_reachAux g s _ [s] ?_ v hv
    intro a ha
    rcases List.mem_singleton.mp ha with rfl
    exact Relation.ReflTransGen.refl
  · intro hv
    refine mem_of_closed_reaches g _ ?_ s (subset_reachAux g _ [s] s (by simp)) v hv
    exact reachAux_closed g hwf _ [s] (List.nodup_singleton s) (List.length_filter_le _ _)

theorem mem_nodes_of_reaches (g : DiGraph) (hwf : g.WF) (s v : String)
    (h : Reaches g s v) (hne : v ≠ s) : v ∈ g.nodes := by
  rcases Relation.ReflTransGen.cases_tail h with heq | ⟨c, _, hedge⟩
  · exact absurd heq hne
  · obtain ⟨r, hmem⟩ := hedge
    exact (hwf.2 _ hmem).2

/-! ## The shape of a successful result -/

theorem get_ingredients_eq_ok (g : DiGraph) (recipe : String) (n : ℚ)
    (hr : recipe ∈ g.nodes) :
    get_ingredients g recipe n =
      .ok (delKey
        (((setVal ((subgraph g (reachAux g g.nodes.length [recipe])).nodes.map
              (fun m => (m, (0 : ℚ)))) recipe n).map Prod.fst).foldl
          (accumPaths (subgraph g (reachAux g g.nodes.length [recipe])) n recipe)
          (setVal ((subgraph g (reachAux g g.nodes.length [recipe])).nodes.map
            (fun m => (m, (0 : ℚ)))) recipe n))
        recipe) := by
  rw [get_ingredients, predecessorKeys, if_pos hr]

theorem keys_get_ingredients (g : DiGraph) (recipe : String) (n : ℚ)
    (hr : recipe ∈ g.nodes) :
    ∃ l, get_ingredients g recipe n = .ok l ∧
      l.map Prod.fst =
        (g.nodes.filter (fun v => (reachAux g g.nodes.length [recipe]).contains v)).filter
          (fun v => !(v == recipe)) := by
  refine ⟨_, get_ingredients_eq_ok g recipe n hr, ?_⟩
  have hid : ∀ l : List String, (l.map (fun m => (m, (0 : ℚ)))).map Prod.fst = l := by
    intro l
    induction l with
    | nil => rfl
    | cons a t ih => simp only [List.map_cons, ih]
  rw [map_fst_delKey, map_fst_foldl_accumPaths, map_fst_setVal]
  · rw [show (subgraph g (reachAux g g.nodes.length [recipe])).nodes =
        g.nodes.filter (fun v => (reachAux g g.nodes.length [recipe]).contains v) from rfl,
      hid]
  · have hp : recipe ∈ reachAux g g.nodes.length [recipe] :=
      subset_reachAux g g.nodes.length [recipe] recipe (by simp)
    simp [subgraph, hid, List.mem_filter, hr, hp]

/-! ## Claim theorems -/

/-- C1: for the diamond graph with edges `A→B` (rate 2), `A→C` (rate 3),
`B→D` (rate 5), `C→D` (rate 7), `get_ingredients(graph, "A", 1)` returns
exactly the mapping `B ↦ 2, C ↦ 3, D ↦ 31`, where `31 = 1*2*5 + 1*3*7`
sums the rate products over both simple paths from `A` to `D`. -/
theorem diamond_aggregation :
    get_ingredients diamondG "A" 1 = .ok [("B", 2), ("C", 3), ("D", 31)] := by
  simp [get_ingredients, accumPaths, predecessorKeys, reachAux, reachStepFresh,
    subgraph, all_simple_edge_paths, simplePathsAux, setVal, addVal, delKey,
    pathProduct, edgeRateD, edgeRate, succs, diamondG, build_graph, addEdge,
    addNode, setEdge, emptyGraph, List.dedup]
  norm_num

/-- C2, counterexample: the claim states that the key set of the result is
the *ancestor closure* of `recipe` (all nodes from which `recipe` is
reachable) minus `recipe`.  For the single-edge graph `B → A` and query
recipe `A` this fails: `B` is an ancestor of `A`, but `get_ingredients`
returns the empty mapping (its key set is the *descendant* closure of `A`
minus `A`, which is empty). -/
theorem ancestor_closure_counterexample :
    ¬ (∃ l, get_ingredients reverseEdgeG "A" 1 = .ok l ∧
        ∀ k, (k ∈ l.map Prod.fst ↔ (Reaches reverseEdgeG k "A" ∧ k ≠ "A"))) := by
  rintro ⟨l, hok, hiff⟩
  have hval : get_ingredients reverseEdgeG "A" 1 = .ok [] := by
    simp [get_ingredients, accumPaths, predecessorKeys, reachAux, reachStepFresh,
      subgraph, all_simple_edge_paths, simplePathsAux, setVal, addVal, delKey,
      pathProduct, edgeRateD, edgeRate, succs, reverseEdgeG, build_graph, addEdge,
      addNode, setEdge, emptyGraph, List.dedup]
  rw [hval] at hok
  have hl : l = [] := by
    injection hok with h
    exact h.symm
  have hedge : Edge reverseEdgeG "B" "A" := by
    refine ⟨7, ?_⟩
    show (("B", "A"), (7 : ℚ)) ∈ (build_graph [⟨"B", "A", 7⟩]).adj
    simp [build_graph, addEdge, setEdge, emptyGraph]
  have hB : "B" ∈ l.map Prod.fst :=
    (hiff "B").mpr ⟨Relation.ReflTransGen.single hedge, by decide⟩
  rw [hl] at hB
  simp at hB

/-- C2, amended: for every well-formed graph and recipe node present in it,
the key set of the result of `get_ingredients` is the **descendant**
closure of `recipe` (all nodes reachable **from** `recipe` via directed
edges) minus `recipe` itself — not the ancestor closure the claim names. -/
theorem keys_eq_descendant_closure (g : DiGraph) (hwf : g.WF) (recipe : String)
    (hr : recipe ∈ g.nodes) (n : ℚ) :
    ∃ l, get_ingredients g recipe n = .ok l ∧
      ∀ k, (k ∈ l.map Prod.fst ↔ (Reaches g recipe k ∧ k ≠ recipe)) := by
  obtain ⟨l, hok, hkeys⟩ := keys_get_ingredients g recipe n hr
  refine ⟨l, hok, fun k => ?_⟩
  rw [hkeys]
  constructor
  · intro hk
    have h2 := (List.mem_filter.mp hk).2
    have h1 := List.mem_filter.mp (List.mem_filter.mp hk).1
    refine ⟨(mem_reachAux_iff g hwf recipe k).mp (by simpa using h1.2), ?_⟩
    simpa using h2
  · rintro ⟨hreach, hne⟩
    refine List.mem_filter.mpr ⟨List.mem_filter.mpr ⟨?_, ?_⟩, by simpa using hne⟩
    · exact mem_nodes_of_reaches g hwf recipe k hreach hne
    · simpa using (mem_reachAux_iff g hwf recipe k).mpr hreach

/-- Witness for C2 (amended) at the diamond graph: instantiates the theorem
at `diamondG`, recipe `A`, quantity 1. -/
theorem keys_eq_descendant_closure_witness :
    ∃ l, get_ingredients diamondG "A" 1 = .ok l ∧
      ∀ k, (k ∈ l.map Prod.fst ↔ (Reaches diamondG "A" k ∧ k ≠ "A")) :=
  keys_eq_descendant_closure diamondG (by constructor <;> decide) "A" (by decide) 1

/-- C3: querying a recipe name that is not a node of the graph fails with
the graph library's missing-node error, which the spec classifies as a
LookupError-class condition (`InvalidRecipeError`); the function surfaces
it rather than returning a mapping. -/
theorem unknown_recipe_lookup_error (g : DiGraph) (recipe : String)
    (hr : recipe ∉ g.nodes) (n : ℚ) :
    ∃ e, get_ingredients g recipe n = .error e ∧ e.isLookupError = true := by
  refine ⟨.nodeNotFound, ?_, rfl⟩
  simp [get_ingredients, predecessorKeys, hr]

/-- Witness for C3: the diamond graph has no node `"NoSuchRecipe"`. -/
theorem unknown_recipe_lookup_error_witness :
    ∃ e, get_ingredients diamondG "NoSuchRecipe" 1 = .error e ∧
      e.isLookupError = true :=
  unknown_recipe_lookup_error diamondG "NoSuchRecipe" (by decide) 1

/-- C5: for every graph and recipe node present in it, the returned mapping
never contains the queried recipe's own name as a key (the `del
ingredients[recipe]` step removes it). -/
theorem no_self_entry (g : DiGraph) (recipe : String) (hr : recipe ∈ g.nodes)
    (n : ℚ) :
    ∃ l, get_ingredients g recipe n = .ok l ∧ recipe ∉ l.map Prod.fst := by
  obtain ⟨l, hok, hkeys⟩ := keys_get_ingredients g recipe n hr
  refine ⟨l, hok, ?_⟩
  rw [hkeys]
  intro hmem
  have := (List.mem_filter.mp hmem).2
  simp at this

/-- Witness for C5 at the diamond graph. -/
theorem no_self_entry_witness :
    ∃ l, get_ingredients diamondG "A" 1 = .ok l ∧ "A" ∉ l.map Prod.fst :=
  no_self_entry diamondG "A" (by decide) 1

/-- C7: `get_ingredients` is a pure function of its inputs.  In the
state-passing rendering `get_ingredients_st`, where every graph operation
is paired with the graph state it leaves behind, the final graph state is
the input graph unchanged (node set, edge set and rate attributes), and the
returned value is exactly `get_ingredients`. -/
theorem get_ingredients_pure (g : DiGraph) (recipe : String) (n : ℚ) :
    (get_ingredients_st g recipe n).2 = g ∧
    (get_ingredients_st g recipe n).1 = get_ingredients g recipe n := by
  rcases hp : predecessorKeys g recipe with e | p <;>
    simp [get_ingredients_st, get_ingredients, hp]

/-- C8: `get_ingredients` is deterministic — two invocations on the same
inputs are equal — and its entries are listed in a deterministic order: the
graph's node-insertion order restricted to the nodes discovered by the
predecessor BFS, with the recipe itself removed. -/
theorem deterministic_discovery_order (g : DiGraph) (recipe : String)
    (hr : recipe ∈ g.nodes) (n : ℚ) :
    get_ingredients g recipe n = get_ingredients g recipe n ∧
    ∃ l, get_ingredients g recipe n = .ok l ∧
      l.map Prod.fst =
        (g.nodes.filter (fun v => (reachAux g g.nodes.length [recipe]).contains v)).filter
          (fun v => !(v == recipe)) :=
  ⟨rfl, keys_get_ingredients g recipe n hr⟩

/-- Witness for C8 at the diamond graph. -/
theorem deterministic_discovery_order_witness :
    get_ingredients diamondG "A" 1 = get_ingredients diamondG "A" 1 ∧
    ∃ l, get_ingredients diamondG "A" 1 = .ok l ∧
      l.map Prod.fst =
        (diamondG.nodes.filter
          (fun v => (reachAux diamondG diamondG.nodes.length ["A"]).contains v)).filter
          (fun v => !(v == "A")) :=
  deterministic_discovery_order diamondG "A" (by decide) 1

/-! ## Linearity of the accumulation in the output quantity -/

theorem scaleVals_setVal (c : ℚ) (l : List (String × ℚ)) (a : String) (x : ℚ) :
    scaleVals c (setVal l a x) = setVal (scaleVals c l) a (c * x) := by
  induction l with
  | nil => rfl
  | cons p rest ih =>
      by_cases h : p.1 = a
      · simp [setVal, scaleVals, h]
      · simp only [setVal, scaleVals, List.map_cons, h, if_false, ite_false]
        simpa [scaleVals] using ih

theorem scaleVals_addVal (c : ℚ) (l : List (String × ℚ)) (a : String) (x : ℚ) :
    scaleVals c (addVal l a x) = addVal (scaleVals c l) a (c * x) := by
  induction l with
  | nil => rfl
  | cons p rest ih =>
      by_cases h : p.1 = a <;>
        simpa [scaleVals, addVal, h, mul_add] using ih

theorem pathProduct_scale (sg : DiGraph) (c : ℚ) (path : List (String × String)) :
    ∀ seed : ℚ, pathProduct sg (c * seed) path = c * pathProduct sg seed path := by
  induction path with
  | nil => intro seed; rfl
  | cons e rest ih =>
      intro seed
      show pathProduct sg (c * seed * edgeRateD sg e.1 e.2) rest =
        c * pathProduct sg (seed * edgeRateD sg e.1 e.2) rest
      rw [mul_assoc, ih]

theorem accumPaths_scale (sg : DiGraph) (c : ℚ) (recipe : String)
    (acc : List (String × ℚ)) (ing : String) :
    accumPaths sg c recipe (scaleVals c acc) ing =
      scaleVals c (accumPaths sg 1 recipe acc ing) := by
  rw [accumPaths, accumPaths]
  generalize all_simple_edge_paths sg recipe ing = paths
  induction paths generalizing acc with
  | nil => rfl
  | cons path rest ih =>
      simp only [List.foldl_cons]
      have hprod : pathProduct sg c path = c * pathProduct sg 1 path := by
        simpa using pathProduct_scale sg c path 1
      rw [hprod, ← scaleVals_addVal]
      exact ih (addVal acc ing (pathProduct sg 1 path))

theorem foldl_accumPaths_scale (sg : DiGraph) (c : ℚ) (recipe : String)
    (ings : List String) (acc : List (String × ℚ)) :
    ings.foldl (accumPaths sg c recipe) (scaleVals c acc) =
      scaleVals c (ings.foldl (accumPaths sg 1 recipe) acc) := by
  induction ings generalizing acc with
  | nil => rfl
  | cons ing rest ih =>
      simp only [List.foldl_cons]
      rw [accumPaths_scale]
      exact ih (accumPaths sg 1 recipe acc ing)

theorem delKey_scaleVals (c : ℚ) (l : List (String × ℚ)) (k : String) :
    delKey (scaleVals c l) k = scaleVals c (delKey l k) := by
  induction l with
  | nil => rfl
  | cons p rest ih =>
      by_cases h : p.1 = k <;> simp [delKey, scaleVals, List.filter_cons, h] at ih ⊢ <;>
        simpa [delKey, scaleVals] using ih

theorem scaleVals_zeros (c : ℚ) (ns : List String) :
    scaleVals c (ns.map (fun n => (n, (0 : ℚ)))) = ns.map (fun n => (n, (0 : ℚ))) := by
  induction ns with
  | nil => rfl
  | cons a t ih => simp only [scaleVals, List.map_cons, mul_zero] at ih ⊢; rw [ih]

theorem map_fst_scaleVals (c : ℚ) (l : List (String × ℚ)) :
    (scaleVals c l).map Prod.fst = l.map Prod.fst := by
  induction l with
  | nil => rfl
  | cons p rest ih => simp only [scaleVals, List.map_cons] at ih ⊢; rw [ih]

/-- C4: for every graph, recipe node present in it, and positive scalar
`k`, `get_ingredients(graph, recipe, k)` is `get_ingredients(graph,
recipe, 1)` with every value multiplied by `k` (linearity in the output
quantity). -/
theorem scaling_linearity (g : DiGraph) (recipe : String)
    (hr : recipe ∈ g.nodes) (k : ℚ) (hk : 0 < k) :
    ∃ l₁, get_ingredients g recipe 1 = .ok l₁ ∧
      get_ingredients g recipe k = .ok (scaleVals k l₁) := by
  rw [get_ingredients_eq_ok g recipe 1 hr, get_ingredients_eq_ok g recipe k hr]
  refine ⟨_, rfl, ?_⟩
  have h1 : setVal ((subgraph g (reachAux g g.nodes.length [recipe])).nodes.map
      (fun m => (m, (0 : ℚ)))) recipe k =
      scaleVals k (setVal ((subgraph g (reachAux g g.nodes.length [recipe])).nodes.map
        (fun m => (m, (0 : ℚ)))) recipe 1) := by
    rw [scaleVals_setVal, scaleVals_zeros, mul_one]
  rw [h1, map_fst_scaleVals, foldl_accumPaths_scale, delKey_scaleVals]

/-- Witness for C4 at the diamond graph with `k = 2`. -/
theorem scaling_linearity_witness :
    ∃ l₁, get_ingredients diamondG "A" 1 = .ok l₁ ∧
      get_ingredients diamondG "A" 2 = .ok (scaleVals 2 l₁) :=
  scaling_linearity diamondG "A" (by decide) 2 (by norm_num)

/-! ## Edge construction: overwrite semantics of `add_edge` -/

theorem pair_cond_false (x y u v : String) (h : ¬(x = u ∧ y = v)) :
    (x == u && y == v) = false := by
  by_cases h1 : x = u
  · have h2 : y ≠ v := fun hy => h ⟨h1, hy⟩
    simp [h1, h2]
  · simp [h1]

theorem find?_setEdge (adj : List ((String × String) × ℚ)) (a b u v : String)
    (r : ℚ) :
    ((setEdge adj a b r).find? (fun e => e.1.1 == u && e.1.2 == v)).map
        (fun e => e.2) =
      if u = a ∧ v = b then some r
      else (adj.find? (fun e => e.1.1 == u && e.1.2 == v)).map (fun e => e.2) := by
  by_cases h : u = a ∧ v = b
  · obtain ⟨rfl, rfl⟩ := h
    rw [if_pos ⟨rfl, rfl⟩]
    induction adj with
    | nil => simp [setEdge]
    | cons e rest ih =>
        by_cases he : e.1 = (u, v)
        · simp [setEdge, he]
        · have hm : (e.1.1 == u && e.1.2 == v) = false := by
            refine pair_cond_false e.1.1 e.1.2 u v ?_
            rintro ⟨h1, h2⟩
            exact he (Prod.ext h1 h2)
          simp only [setEdge, he, ite_false, List.find?_cons, hm]
          exact ih
  · rw [if_neg h]
    have hab : (a == u && b == v) = false :=
      pair_cond_false a b u v (fun hh => h ⟨hh.1.symm, hh.2.symm⟩)
    induction adj with
    | nil => simp only [setEdge, List.find?_cons, hab, List.find?_nil, Option.map_none]
    | cons e rest ih =>
        by_cases he : e.1 = (a, b)
        · have he2 : (e.1.1 == u && e.1.2 == v) = false := by rw [he]; exact hab
          simp only [setEdge, he, ite_true, List.find?_cons, hab, he2]
        · simp only [setEdge, he, ite_false, List.find?_cons]
          cases hmatch : (e.1.1 == u && e.1.2 == v) with
          | true => rfl
          | false => exact ih

theorem edgeRate_addEdge (g : DiGraph) (a b u v : String) (r : ℚ) :
    edgeRate (addEdge g a b r) u v =
      if u = a ∧ v = b then some r else edgeRate g u v :=
  find?_setEdge g.adj a b u v r

theorem edgeRate_foldl_rows (u v : String) (rows : List Row) (g : DiGraph) :
    edgeRate (rows.foldl (fun g row => addEdge g row.Recipe row.Ingredient row.rate) g) u v =
      Option.or
        (((rows.filter (fun row => row.Recipe == u && row.Ingredient == v)).getLast?).map
          Row.rate)
        (edgeRate g u v) := by
  induction rows generalizing g with
  | nil => simp [Option.none_or]
  | cons row rest ih =>
      simp only [List.foldl_cons]
      by_cases hm : (row.Recipe == u && row.Ingredient == v) = true
      · have hin := (Bool.and_eq_true _ _).mp hm
        have hu : u = row.Recipe := (beq_iff_eq.mp hin.1).symm
        have hv : v = row.Ingredient := (beq_iff_eq.mp hin.2).symm
        have hfc : (row :: rest).filter (fun r2 => r2.Recipe == u && r2.Ingredient == v) =
            row :: rest.filter (fun r2 => r2.Recipe == u && r2.Ingredient == v) := by
          simp [List.filter_cons, hm]
        rw [hfc, ih, edgeRate_addEdge, if_pos ⟨hu, hv⟩]
        cases hrest : rest.filter (fun row => row.Recipe == u && row.Ingredient == v) with
        | nil => simp [hrest]
        | cons x xs =>
            rw [List.getLast?_cons_cons]
            have hy : ∃ y, (x :: xs).getLast? = some y :=
              ⟨(x :: xs).getLast (List.cons_ne_nil x xs), List.getLast?_eq_getLast _ _⟩
            obtain ⟨y, hy⟩ := hy
            simp [hy]
      · have hne : ¬(u = row.Recipe ∧ v = row.Ingredient) := by
          rintro ⟨rfl, rfl⟩
          simp at hm
        have hfc : (row :: rest).filter (fun r2 => r2.Recipe == u && r2.Ingredient == v) =
            rest.filter (fun r2 => r2.Recipe == u && r2.Ingredient == v) := by
          simp [List.filter_cons, hm]
        rw [hfc, ih, edgeRate_addEdge, if_neg hne]

theorem mem_map_fst_setEdge (adj : List ((String × String) × ℚ))
    (a b : String) (r : ℚ) (x : String × String)
    (hx : x ∈ (setEdge adj a b r).map Prod.fst) :
    x ∈ adj.map Prod.fst ∨ x = (a, b) := by
  induction adj with
  | nil => simpa [setEdge] using hx
  | cons e rest ih =>
      by_cases he : e.1 = (a, b)
      · simp only [setEdge, he, ite_true, List.map_cons, List.mem_cons] at hx ⊢
        tauto
      · simp only [setEdge, he, ite_false, List.map_cons, List.mem_cons] at hx ⊢
        rcases hx with hx | hx
        · tauto
        · rcases ih hx with h | h <;> tauto

theorem nodup_fst_setEdge (adj : List ((String × String) × ℚ))
    (a b : String) (r : ℚ) (h : (adj.map Prod.fst).Nodup) :
    ((setEdge adj a b r).map Prod.fst).Nodup := by
  induction adj with
  | nil => simp [setEdge]
  | cons e rest ih =>
      by_cases he : e.1 = (a, b)
      · simp only [setEdge, he, ite_true, List.map_cons]
        rw [← he]
        simpa only [List.map_cons] using h
      · simp only [List.map_cons, List.nodup_cons] at h
        simp only [setEdge, he, ite_false, List.map_cons, List.nodup_cons]
        refine ⟨?_, ih h.2⟩
        intro hmem
        rcases mem_map_fst_setEdge rest a b r e.1 hmem with hm | hm
        · exact h.1 hm
        · exact he hm

theorem nodup_fst_build_graph (rows : List Row) :
    (((build_graph rows).adj).map Prod.fst).Nodup := by
  rw [build_graph]
  have key : ∀ (rs : List Row) (g : DiGraph), (g.adj.map Prod.fst).Nodup →
      (((rs.foldl (fun g row => addEdge g row.Recipe row.Ingredient row.rate) g).adj).map
        Prod.fst).Nodup := by
    intro rs
    induction rs with
    | nil => intro g hg; exact hg
    | cons row rest ih =>
        intro g hg
        exact ih _ (nodup_fst_setEdge g.adj row.Recipe row.Ingredient row.rate hg)
  exact key rows emptyGraph (by simp [emptyGraph])

/-- C10: `build_graph` collapses input rows with the same
`(Recipe, Ingredient)` pair into a single directed edge — the adjacency
list never holds two edges for one ordered pair — and the rate attribute of
the edge `u → v` is the one of the **last** row with that pair (duplicate
rows silently overwrite earlier ones); when no row has the pair, there is
no such edge. -/
theorem duplicate_rows_collapse (rows : List Row) (u v : String) :
    (((build_graph rows).adj).map Prod.fst).Nodup ∧
    edgeRate (build_graph rows) u v =
      ((rows.filter (fun row => row.Recipe == u && row.Ingredient == v)).getLast?).map
        Row.rate := by
  refine ⟨nodup_fst_build_graph rows, ?_⟩
  rw [build_graph, edgeRate_foldl_rows]
  simp [emptyGraph, edgeRate, Option.or_none]

/-! ## Leaf recipes -/

theorem succs_eq_nil_of_leaf (g : DiGraph) (recipe : String)
    (hleaf : ∀ e ∈ g.adj, e.1.1 ≠ recipe) : succs g recipe = [] := by
  rw [succs]
  have hfil : g.adj.filter (fun e => e.1.1 == recipe) = [] := by
    rw [List.filter_eq_nil_iff]
    intro e he
    simp [hleaf e he]
  rw [hfil]
  rfl

theorem reachAux_singleton (g : DiGraph) (recipe : String)
    (hsuccs : succs g recipe = []) (fuel : Nat) :
    reachAux g fuel [recipe] = [recipe] := by
  cases fuel with
  | zero => rfl
  | succ m =>
      rw [reachAux]
      have hfresh : reachStepFresh g [recipe] = [] := by
        simp [reachStepFresh, hsuccs]
      simp [hfresh]

theorem filter_beq_singleton (l : List String) (hnd : l.Nodup) (a : String)
    (ha : a ∈ l) : l.filter (fun n => n == a) = [a] := by
  induction l with
  | nil => cases ha
  | cons b t ih =>
      rcases List.mem_cons.mp ha with rfl | hat
      · have hnotin : a ∉ t := (List.nodup_cons.mp hnd).1
        have ht : t.filter (fun n => n == a) = [] := by
          rw [List.filter_eq_nil_iff]
          intro x hx hc
          have hxa : x = a := by simpa using hc
          exact hnotin (hxa ▸ hx)
        simp [List.filter_cons, ht]
      · have hba : b ≠ a := fun h => (List.nodup_cons.mp hnd).1 (h ▸ hat)
        simpa [List.filter_cons, hba] using ih (List.nodup_cons.mp hnd).2 hat

/-- C9: for every well-formed graph and recipe node with no outgoing edges
(a raw resource), `get_ingredients` succeeds and returns the empty
mapping. -/
theorem leaf_recipe_empty (g : DiGraph) (hwf : g.WF) (recipe : String)
    (hr : recipe ∈ g.nodes) (hleaf : ∀ e ∈ g.adj, e.1.1 ≠ recipe) (n : ℚ) :
    get_ingredients g recipe n = .ok [] := by
  have hsuccs : succs g recipe = [] := succs_eq_nil_of_leaf g recipe hleaf
  have hreach : reachAux g g.nodes.length [recipe] = [recipe] :=
    reachAux_singleton g recipe hsuccs g.nodes.length
  have hpred : (fun m => (([recipe] : List String).contains m)) =
      (fun m : String => m == recipe) := by
    funext m
    rw [Bool.eq_iff_iff]
    simp
  have hn : g.nodes.filter (fun m => ([recipe] : List String).contains m) = [recipe] := by
    rw [hpred]
    exact filter_beq_singleton g.nodes hwf.1 recipe hr
  have ha : g.adj.filter
      (fun e => ([recipe] : List String).contains e.1.1 &&
        ([recipe] : List String).contains e.1.2) = [] := by
    rw [List.filter_eq_nil_iff]
    intro e he hc
    have h1 : (([recipe] : List String).contains e.1.1) = true :=
      ((Bool.and_eq_true _ _).mp hc).1
    have h2 : e.1.1 = recipe := by simpa using h1
    exact hleaf e he h2
  have hsg : subgraph g [recipe] = ⟨[recipe], []⟩ := by
    show DiGraph.mk _ _ = _
    rw [hn, ha]
  rw [get_ingredients_eq_ok g recipe n hr, hreach, hsg]
  simp [accumPaths, all_simple_edge_paths, simplePathsAux, setVal, addVal,
    delKey, pathProduct]

/-- Witness for C9: node `D` of the diamond graph has no outgoing edges. -/
theorem leaf_recipe_empty_witness : get_ingredients diamondG "D" 1 = .ok [] :=
  leaf_recipe_empty diamondG (by constructor <;> decide) "D" (by decide)
    (by decide) 1

/-! ## The single-edge graph -/

/-- C6: for the graph with the single edge `A → B` (two distinct nodes)
carrying rate `r`, requesting `n` units of `A` returns exactly the mapping
`B ↦ n * r`. -/
theorem direct_edge_case (A B : String) (hne : A ≠ B) (r n : ℚ) :
    get_ingredients (addEdge emptyGraph A B r) A n = .ok [(B, n * r)] := by
  have hne2 : B ≠ A := Ne.symm hne
  set g := addEdge emptyGraph A B r with hg
  have hnodes : g.nodes = [A, B] := by
    simp [hg, addEdge, addNode, emptyGraph, hne2]
  have hadj : g.adj = [((A, B), r)] := rfl
  have hr : A ∈ g.nodes := by
    rw [hnodes]
    simp
  have hsA : succs g A = [B] := by
    rw [succs, hadj]
    simp
  have hsB : succs g B = [] := by
    rw [succs, hadj]
    simp [hne]
  have hfresh1 : reachStepFresh g [A] = [B] := by
    simp [reachStepFresh, hsA, hne2]
  have hfresh2 : reachStepFresh g [A, B] = [] := by
    simp [reachStepFresh, hsA, hsB]
  have hreach : reachAux g g.nodes.length [A] = [A, B] := by
    rw [hnodes]
    show reachAux g 2 [A] = [A, B]
    rw [reachAux]
    simp only [hfresh1]
    rw [if_neg (by simp)]
    show reachAux g 1 [A, B] = [A, B]
    rw [reachAux]
    simp [hfresh2]
  have hsg : subgraph g [A, B] = ⟨[A, B], [((A, B), r)]⟩ := by
    rw [subgraph, hnodes, hadj]
    simp [hne2]
  rw [get_ingredients_eq_ok g A n hr, hreach, hsg]
  simp [accumPaths, all_simple_edge_paths, simplePathsAux, setVal, addVal,
    delKey, pathProduct, edgeRateD, edgeRate, succs, hne, hne2]

/-- Witness for C6 at `A = "A"`, `B = "B"`, `r = 5`, `n = 3`. -/
theorem direct_edge_case_witness :
    get_ingredients (addEdge emptyGraph "A" "B" 5) "A" 3 = .ok [("B", 3 * 5)] :=
  direct_edge_case "A" "B" (by decide) 5 3

end RecipeCalc
